import Mathlib

/-!
A verification development for the single-file Python blockchain engine
(`blockchain(5).py`): transactions with predicate-guarded outputs, a Merkle
tree over transaction hashes, proof-of-work blocks, and a multi-fork chain
with a most-cumulative-work tip rule.

The Python code is shallowly embedded:

* Python `int` is `Int` (arbitrary precision); byte strings are `List Nat`
  with every element below 256.
* Python dictionaries are association lists in insertion order
  (`pyDictGet`, `pyDictSet`, `pyDictDel`), with `pyDictSet` replacing the
  value in place when the key is present and appending otherwise, exactly
  like CPython dicts.
* Raised exceptions are `Except PyErr`; functions that cannot raise are
  total.
* The values a spender may pass to a constraint script are `PyVal`
  (booleans, integers, strings), with Python truthiness as `pyTruthy`.
* `hashlib.sha256` is implemented concretely (`sha256int` below, returning
  the digest as a big-endian integer, as `int.from_bytes(..., "big")` does).
* `dill.dumps` of a transaction (an opaque serializer of closures) is a
  parameter `dumps : Transaction → List Nat` of every definition that
  hashes transactions.
-/

set_option maxRecDepth 4000

/-- A Python exception, as coarse-grained as the claims need: `keyError` for
`d[k]` misses, `typeError` for unsupported comparisons, `other` for anything a
user-supplied constraint script may raise. -/
inductive PyErr where
  | keyError
  | typeError
  | other
deriving DecidableEq, Repr

/-- A Python value that can appear in a satisfier list or be returned by a
constraint script.  Three representative kinds suffice for the claims:
booleans, integers and strings. -/
inductive PyVal where
  | vbool : Bool → PyVal
  | vint : Int → PyVal
  | vstr : String → PyVal
deriving DecidableEq, Repr

/-- Python truthiness of a `PyVal`: `bool(x)`.  `False`, `0` and `""` are
falsy, everything else is truthy. -/
def pyTruthy : PyVal → Bool
  | .vbool b => b
  | .vint n => n ≠ 0
  | .vstr s => s ≠ ""

/-- `d.get(k)` on a CPython dict modelled as an insertion-ordered
association list. -/
def pyDictGet {κ α : Type} [DecidableEq κ] : List (κ × α) → κ → Option α
  | [], _ => none
  | (k', v) :: rest, k => if k' = k then some v else pyDictGet rest k

/-- `k in d` on a CPython dict. -/
def pyDictMem {κ α : Type} [DecidableEq κ] (d : List (κ × α)) (k : κ) : Bool :=
  (pyDictGet d k).isSome

/-- `d[k] = v` on a CPython dict: replace in place when the key is present,
append otherwise. -/
def pyDictSet {κ α : Type} [DecidableEq κ] (d : List (κ × α)) (k : κ) (v : α) :
    List (κ × α) :=
  if pyDictMem d k then d.map (fun p => if p.1 = k then (k, v) else p)
  else d ++ [(k, v)]

/-- `if k in d: del d[k]` on a CPython dict (deleting an absent key is a
no-op here because the source always guards the deletion). -/
def pyDictDel {κ α : Type} [DecidableEq κ] (d : List (κ × α)) (k : κ) :
    List (κ × α) :=
  d.filter (fun p => p.1 ≠ k)

/-! ## SHA-256 (`hashlib.sha256`), executable over `Nat` -/

/-- Truncate to a 32-bit word. -/
def w32 (n : Nat) : Nat := n % 4294967296

/-- Rotate the 32-bit word `x` right by `k` positions. -/
def rotr32 (k x : Nat) : Nat := w32 ((x >>> k) ||| (x <<< (32 - k)))

def shaCh (e f g : Nat) : Nat := (e &&& f) ^^^ ((e ^^^ 4294967295) &&& g)

def shaMaj (a b c : Nat) : Nat := (a &&& b) ^^^ (a &&& c) ^^^ (b &&& c)

def shaBigSig0 (x : Nat) : Nat := rotr32 2 x ^^^ rotr32 13 x ^^^ rotr32 22 x

def shaBigSig1 (x : Nat) : Nat := rotr32 6 x ^^^ rotr32 11 x ^^^ rotr32 25 x

def shaSmallSig0 (x : Nat) : Nat := rotr32 7 x ^^^ rotr32 18 x ^^^ (x >>> 3)

def shaSmallSig1 (x : Nat) : Nat := rotr32 17 x ^^^ rotr32 19 x ^^^ (x >>> 10)

/-- The 64 SHA-256 round constants (FIPS 180-4), written in decimal. -/
def shaK : List Nat :=
  [1116352408, 1899447441, 3049323471, 3921009573, 961987163,
   1508970993, 2453635748, 2870763221, 3624381080, 310598401,
   607225278, 1426881987, 1925078388, 2162078206, 2614888103,
   3248222580, 3835390401, 4022224774, 264347078, 604807628,
   770255983, 1249150122, 1555081692, 1996064986, 2554220882,
   2821834349, 2952996808, 3210313671, 3336571891, 3584528711,
   113926993, 338241895, 666307205, 773529912, 1294757372,
   1396182291, 1695183700, 1986661051, 2177026350, 2456956037,
   2730485921, 2820302411, 3259730800, 3345764771, 3516065817,
   3600352804, 4094571909, 275423344, 430227734, 506948616,
   659060556, 883997877, 958139571, 1322822218, 1537002063,
   1747873779, 1955562222, 2024104815, 2227730452, 2361852424,
   2428436474, 2756734187, 3204031479, 3329325298]

/-- The initial SHA-256 hash state (FIPS 180-4), written in decimal. -/
def shaInit : List Nat :=
  [1779033703, 3144134277, 1013904242, 2773480762,
   1359893119, 2600822924, 528734635, 1541459225]

/-- `n.to_bytes(k, "big")` (truncating if `n` needs more than `k` bytes;
every use in this development is in range). -/
def natToBytesBE (k n : Nat) : List Nat :=
  (List.range k).map (fun i => (n >>> (8 * (k - 1 - i))) % 256)

/-- SHA-256 padding: append `0x80`, zeros to 56 mod 64, then the bit length
as 8 big-endian bytes. -/
def shaPad (msg : List Nat) : List Nat :=
  msg ++ 128 :: (List.replicate ((119 - msg.length % 64) % 64) 0
    ++ natToBytesBE 8 (8 * msg.length))

/-- Read the 32-bit big-endian word at byte offset `off`. -/
def shaWordAt (padded : List Nat) (off : Nat) : Nat :=
  (padded.getD off 0 <<< 24) ||| (padded.getD (off + 1) 0 <<< 16) |||
    (padded.getD (off + 2) 0 <<< 8) ||| padded.getD (off + 3) 0

/-- Extend 16 message words to the 64-word schedule (built most recent
first, then reversed). -/
def shaSchedule (w16 : List Nat) : List Nat :=
  ((List.range 48).foldl
    (fun acc _ =>
      w32 (shaSmallSig1 (acc.getD 1 0) + acc.getD 6 0 +
        shaSmallSig0 (acc.getD 14 0) + acc.getD 15 0) :: acc)
    w16.reverse).reverse

/-- One SHA-256 round on the 8-word working state, given `(wᵢ, kᵢ)`. -/
def shaRound (st : List Nat) (wk : Nat × Nat) : List Nat :=
  let t1 := w32 (st.getD 7 0 + shaBigSig1 (st.getD 4 0) +
    shaCh (st.getD 4 0) (st.getD 5 0) (st.getD 6 0) + wk.2 + wk.1)
  let t2 := w32 (shaBigSig0 (st.getD 0 0) +
    shaMaj (st.getD 0 0) (st.getD 1 0) (st.getD 2 0))
  [w32 (t1 + t2), st.getD 0 0, st.getD 1 0, st.getD 2 0,
   w32 (st.getD 3 0 + t1), st.getD 4 0, st.getD 5 0, st.getD 6 0]

/-- Compress one 64-byte block into the hash state. -/
def shaCompress (h : List Nat) (ws : List Nat) : List Nat :=
  let fin := (ws.zip shaK).foldl shaRound h
  (h.zip fin).map (fun p => w32 (p.1 + p.2))

/-- `int.from_bytes(hashlib.sha256(bytes(msg)).digest(), "big")`: the SHA-256
digest of a byte string as a big-endian 256-bit integer. -/
def sha256int (msg : List Nat) : Nat :=
  let padded := shaPad msg
  let hs := (List.range (padded.length / 64)).foldl
    (fun h i =>
      shaCompress h (shaSchedule
        ((List.range 16).map (fun j => shaWordAt padded (64 * i + 4 * j)))))
    shaInit
  hs.foldl (fun acc w => acc * 4294967296 + w) 0

/-! ## Strings and canonical text encodings -/

/-- The UTF-8 bytes of a string (every string the source hashes is ASCII,
where UTF-8 bytes and code points coincide). -/
def utf8Bytes (s : String) : List Nat := s.data.map Char.toNat

/-- Python `str` of an `int`. -/
def pyStrInt (n : Int) : String := toString n

/-- Python `str` of a `Nat`-valued hash. -/
def pyStrNat (n : Nat) : String := toString n

/-- Python `str` of an `int`-or-`None` field: `None` prints as `"None"`. -/
def pyStrOptInt : Option Int → String
  | none => "None"
  | some n => toString n

/-! ## Outputs, inputs, transactions (`Output`, `Input`, `Transaction`) -/

/-- An `Output`: a constraint script and an amount.  The script takes the
satisfier list and either returns a `PyVal` or raises (`Except.error`);
`outputInit` below performs the constructor's `None`-defaulting, so the
stored `constraint` is always the effective script. -/
structure Output where
  constraint : List PyVal → Except PyErr PyVal
  amount : Int

/-- `Output.__init__`: a `None` constraint defaults to `lambda x: True`;
`amount` defaults to 0 at call sites. -/
def outputInit (constraint : Option (List PyVal → Except PyErr PyVal))
    (amount : Int) : Output :=
  { constraint := constraint.getD (fun _ => .ok (.vbool true)), amount := amount }

/-- `Output.can_spend`: run the constraint on the satisfier inside
`try/except`, turning any exception into `False`.  The script's return value
is passed through verbatim — it need not be a boolean. -/
def Output.can_spend (o : Output) (satisfier : List PyVal) : PyVal :=
  match o.constraint satisfier with
  | .ok v => v
  | .error _ => .vbool false

/-- An `Input`: a reference `(txHash, txIdx)` to a prior output plus the
satisfier passed to that output's constraint script. -/
structure Input where
  txHash : Int
  txIdx : Int
  satisfier : List PyVal

/-- `Input.get_reference`. -/
def Input.get_reference (i : Input) : Int × Int := (i.txHash, i.txIdx)

/-- A `Transaction`: inputs, outputs and opaque data bytes (the constructor's
`None` defaults are empty containers). -/
structure Transaction where
  inputs : List Input
  outputs : List Output
  data : List Nat

/-- The UTXO dictionary `{(txHash, offset) : Output}`. -/
abbrev UTXO := List ((Int × Int) × Output)

/-- `Transaction.getHash`: SHA-256 of `dill.dumps((inputs, outputs, data))` as
a big-endian integer.  `dill`'s closure serialization is opaque, so the
serializer is the parameter `dumps`. -/
def Transaction.getHash (dumps : Transaction → List Nat) (tx : Transaction) :
    Nat :=
  sha256int (dumps tx)

/-- `sum(output.amount for output in self.outputs)`. -/
def outputsTotal (tx : Transaction) : Int :=
  tx.outputs.foldl (fun acc o => acc + o.amount) 0

/-- `Transaction.validateMint`: `if self.inputs: return False` (list
truthiness = non-emptiness), then compare the output total to the cap. -/
def Transaction.validateMint (tx : Transaction) (maxCoinsToCreate : Int) :
    Bool :=
  match tx.inputs with
  | _ :: _ => false
  | [] => decide (outputsTotal tx ≤ maxCoinsToCreate)

/-- The input loop of `Transaction.validate`, carrying the running input
total `tinput`: an unknown reference or a constraint result that is not
truthy returns `False` immediately; otherwise the referenced amount is
accumulated and the final comparison is `tinput >= toutput`.
Note `if not o_spent.can_spend(...)` tests Python *truthiness* of the
script's return value, not equality with `True`. -/
def txValidateLoop (u : UTXO) (toutput : Int) : List Input → Int → Bool
  | [], tinput => decide (tinput ≥ toutput)
  | i :: rest, tinput =>
    match pyDictGet u i.get_reference with
    | none => false
    | some o_spent =>
      if pyTruthy (o_spent.can_spend i.satisfier) then
        txValidateLoop u toutput rest (tinput + o_spent.amount)
      else false

/-- `Transaction.validate` over a UTXO dictionary. -/
def Transaction.validate (tx : Transaction) (unspentOutputDict : UTXO) : Bool :=
  txValidateLoop unspentOutputDict (outputsTotal tx) tx.inputs 0

/-! ## Merkle tree (`HashableMerkleTree.calcMerkleRoot`)

The source maps `.getHash()` over the stored leaf objects and then iterates
over lists of integers, so the tree is embedded as functions on the list of
leaf hashes (`blockMerkleRoot` performs the `.getHash()` map for blocks). -/

/-- Combine two sibling hashes: SHA-256 over the concatenation of their
32-byte big-endian encodings. -/
def merkleCombine (left right : Nat) : Nat :=
  sha256int (natToBytesBE 32 left ++ natToBytesBE 32 right)

/-- One level step of the `while` loop: pair `(i, i+1)`, using the sentinel
`0` as the right element when `i + 1` is out of range. -/
def merkleLevel : List Nat → List Nat
  | [] => []
  | [x] => [merkleCombine x 0]
  | x :: y :: rest => merkleCombine x y :: merkleLevel rest

/-- The `while len(cur_level) > 1: ... return cur_level[0]` loop, with
explicit fuel.  The loop needs at most `len - 1` iterations (each level at
least halves the list), so a fuel of the initial length always suffices;
the fuel-exhausted case is unreachable from `calcMerkleRoot`
(`merkleAux_fuel_irrelevant` below).  `headD 0` is `cur_level[0]` on the
lists this is reached with (they are non-empty). -/
def merkleAux : Nat → List Nat → Nat
  | 0, l => l.headD 0
  | fuel + 1, l =>
    if 1 < l.length then merkleAux fuel (merkleLevel l) else l.headD 0

/-- `HashableMerkleTree.calcMerkleRoot`, on the list of leaf hashes:
`0` for an empty list, otherwise the iterated pairwise combination. -/
def calcMerkleRoot (leafHashes : List Nat) : Nat :=
  match leafHashes with
  | [] => 0
  | l => merkleAux l.length l

/-! ## Blocks (`Block`) -/

/-- A `Block`: transactions (the `BlockContents` Merkle-tree leaves), the
prior-block hash, difficulty target, nonce, and the UTXO snapshot attached
on acceptance.  `height` is assigned by the chain on acceptance; Python
creates the attribute at that assignment, the model carries a field that is
never read before the chain assigns it. -/
structure Block where
  txs : List Transaction
  priorBlockHash : Option Int
  target : Option Int
  nonce : Int
  utxo_set : UTXO
  height : Int

/-- `Block()`: empty contents, no prior hash, no target, nonce 0, empty
snapshot. -/
def pyBlockNew : Block :=
  { txs := [], priorBlockHash := none, target := none, nonce := 0,
    utxo_set := [], height := 0 }

/-- The Merkle root of a block's transactions: map `Transaction.getHash`
over the leaves, then `calcMerkleRoot`. -/
def blockMerkleRoot (dumps : Transaction → List Nat)
    (txs : List Transaction) : Nat :=
  calcMerkleRoot (txs.map (Transaction.getHash dumps))

/-- The block header string
`str(priorBlockHash) + str(merkleRoot) + str(target) + str(nonce)`. -/
def blockHeaderStr (dumps : Transaction → List Nat) (b : Block) : String :=
  pyStrOptInt b.priorBlockHash ++ pyStrNat (blockMerkleRoot dumps b.txs) ++
    pyStrOptInt b.target ++ pyStrInt b.nonce

/-- `Block.getHash`: SHA-256 of the UTF-8 encoding of the header string. -/
def Block.getHash (dumps : Transaction → List Nat) (b : Block) : Nat :=
  sha256int (utf8Bytes (blockHeaderStr dumps b))

/-- The `while self.getHash() >= tgt: self.nonce += 1` search, with explicit
fuel (the Python loop has no termination guarantee; `none` models
not-yet-terminated within `fuel` extra nonce increments). -/
def mineAux (dumps : Transaction → List Nat) :
    Nat → Block → Int → Option Block
  | 0, b, tgt => if (Block.getHash dumps b : Int) < tgt then some b else none
  | fuel + 1, b, tgt =>
    if (Block.getHash dumps b : Int) < tgt then some b
    else mineAux dumps fuel { b with nonce := b.nonce + 1 } tgt

/-- `Block.mine(tgt)`: set the target, then search nonces upward from the
current value. -/
def Block.mine (dumps : Transaction → List Nat) (fuel : Nat) (b : Block)
    (tgt : Int) : Option Block :=
  mineAux dumps fuel { b with target := some tgt } tgt

/-- Apply one transaction to a working UTXO dictionary, as the loop body of
`Block.validate` does: insert every output under `(tx.getHash(), i)`, then
delete each input's reference if present. -/
def applyTx (dumps : Transaction → List Nat) (u : UTXO)
    (tx : Transaction) : UTXO :=
  let withOuts := tx.outputs.enum.foldl
    (fun acc p =>
      pyDictSet acc ((Transaction.getHash dumps tx : Int), (p.1 : Int)) p.2) u
  tx.inputs.foldl (fun acc i => pyDictDel acc i.get_reference) withOuts

/-- The transaction loop of `Block.validate`: index 0 must be a valid mint,
later indices must validate against the working snapshot; every transaction
is then applied.  Returns the final snapshot and the `c_found` flag, or
`none` for the loop's early `return None`. -/
def blockTxLoop (dumps : Transaction → List Nat) (maxMint : Int) :
    List Transaction → Nat → UTXO → Bool → Option (UTXO × Bool)
  | [], _, u, cFound => some (u, cFound)
  | tx :: rest, idx, u, cFound =>
    if idx = 0 then
      if tx.validateMint maxMint then
        blockTxLoop dumps maxMint rest (idx + 1) (applyTx dumps u tx) true
      else none
    else
      if tx.validate u then
        blockTxLoop dumps maxMint rest (idx + 1) (applyTx dumps u tx) cFound
      else none

/-- `Block.validate(unspentOutputs, maxMint)`: `None` for an invalid block,
otherwise the new UTXO snapshot.  A block whose `target` is still `None`
raises a `TypeError` at `self.getHash() >= self.target` in Python 3, hence
the `Except`.  The working snapshot starts from a copy of the argument
(value semantics make the copy implicit). -/
def Block.validate (dumps : Transaction → List Nat) (b : Block)
    (unspentOutputs : UTXO) (maxMint : Int) : Except PyErr (Option UTXO) :=
  match b.target with
  | none => .error .typeError
  | some t =>
    if t ≤ (Block.getHash dumps b : Int) then .ok none
    else
      match blockTxLoop dumps maxMint b.txs 0 unspentOutputs false with
      | none => .ok none
      | some (u, cFound) =>
        if 0 < b.txs.length ∧ cFound = false then .ok none else .ok (some u)

/-! ## The chain (`Blockchain`) -/

/-- `Blockchain` state: blocks by id, blocks by height, the two consensus
parameters, and the (always empty) genesis UTXO set. -/
structure Blockchain where
  blocks : List (Int × Block)
  height_blocks : List (Int × List Block)
  maxMintCoinsPerTx : Int
  genesisTarget : Int
  genesis_utxo_set : UTXO

/-- The genesis block after `Block()`, `setTarget(genesisTarget)` and
`mine(genesisTarget)` stopped at nonce `n` (the constructor's `mine` starts
from nonce 0). -/
def genesisBlock (gt n : Int) : Block :=
  { pyBlockNew with target := some gt, nonce := n }

/-- `Blockchain.__init__` followed by `add_block(genesis_block)`: the genesis
block keyed by its hash, height 0. -/
def initState (dumps : Transaction → List Nat) (gt mm n : Int) : Blockchain :=
  let g := genesisBlock gt n
  { blocks := [((Block.getHash dumps g : Int), g)],
    height_blocks := [((0 : Int), [g])],
    maxMintCoinsPerTx := mm,
    genesisTarget := gt,
    genesis_utxo_set := [] }

/-- `Blockchain.getWork`: the ratio of the genesis target to the passed
target.  Python computes this with float `/`; the model uses exact rationals,
which preserves the positivity and ordering structure the claims below rely
on. -/
def Blockchain.getWork (chain : Blockchain) (target : Int) : ℚ :=
  (chain.genesisTarget : ℚ) / (target : ℚ)

/-- The `while blk:` walk of `getCumulativeWork`, summing `getWork` along
prior links.  `blocks.get(None)` is `None` (the keys are integers), ending
the walk at genesis.  The walk visits at most `len(blocks)` distinct blocks;
a longer walk would revisit a block and loop forever in Python (impossible
for a chain whose parent links are older blocks), so the fuel used by
`getCumulativeWork` is unreachable-exhausted on such chains.  A stored block
always has a target (`getD 0` is never taken on chains built by `extend`). -/
def cumWorkAux (chain : Blockchain) : Nat → Option Block → ℚ → ℚ
  | 0, _, acc => acc
  | fuel + 1, cur, acc =>
    match cur with
    | none => acc
    | some blk =>
      cumWorkAux chain fuel
        (match blk.priorBlockHash with
         | none => none
         | some ph => pyDictGet chain.blocks ph)
        (acc + chain.getWork (blk.target.getD 0))

/-- `Blockchain.getCumulativeWork`: `None` when the hash is not a key of
`blocks`, otherwise the summed work along prior links. -/
def Blockchain.getCumulativeWork (chain : Blockchain) (blkHash : Int) :
    Option ℚ :=
  match pyDictGet chain.blocks blkHash with
  | none => none
  | some blk => some (cumWorkAux chain chain.blocks.length (some blk) 0)

/-- The loop body of `getTip`, on the accumulator `(m_work, tip_block)`:
`if blk_work and blk_work > m_work` skips a falsy (`None` or zero) work and
updates only on strict improvement over the running maximum. -/
def tipStep (dumps : Transaction → List Nat) (chain : Blockchain)
    (acc : ℚ × Option Block) (blk : Block) : ℚ × Option Block :=
  match chain.getCumulativeWork ((Block.getHash dumps blk : Int)) with
  | none => acc
  | some w => if w ≠ 0 ∧ acc.1 < w then (w, some blk) else acc

/-- `Blockchain.getTip`: fold over `blocks.values()` keeping the block of
maximum cumulative work; the running maximum starts at `-1` and the tip at
`None`. -/
def Blockchain.getTip (dumps : Transaction → List Nat) (chain : Blockchain) :
    Option Block :=
  ((chain.blocks.map Prod.snd).foldl (tipStep dumps chain)
    ((-1 : ℚ), (none : Option Block))).2

/-- `Blockchain.getBlocksAtHeight`. -/
def Blockchain.getBlocksAtHeight (chain : Blockchain) (height : Int) :
    List Block :=
  (pyDictGet chain.height_blocks height).getD []

/-- `self.blocks[key]` where the key may be `None` (as in
`self.blocks[block.getPriorBlockHash()]`): a missing key — in particular
`None`, which is never a key — raises `KeyError`. -/
def pyDictGetItem (d : List (Int × Block)) (k : Option Int) :
    Except PyErr Block :=
  match k with
  | none => .error .keyError
  | some kk =>
    match pyDictGet d kk with
    | none => .error .keyError
    | some b => .ok b

/-- The `height_blocks` update of `extend`: create the list at a new height,
then append. -/
def heightInsert (hb : List (Int × List Block)) (h : Int) (b : Block) :
    List (Int × List Block) :=
  match pyDictGet hb h with
  | none => pyDictSet hb h [b]
  | some l => pyDictSet hb h (l ++ [b])

/-- `Blockchain.extend(block)`.  The guard rejects only a *non-None* unknown
prior; a `None` prior falls through to `self.blocks[None]`, which raises
`KeyError`.  (The source's `if p_block else ...` alternatives are dead:
a `Block` instance is always truthy and `self.blocks[...]` either returns
one or raises.)  On success the stored block carries the new snapshot and
`parent.height + 1`. -/
def Blockchain.extend (dumps : Transaction → List Nat) (chain : Blockchain)
    (block : Block) : Except PyErr (Bool × Blockchain) :=
  let orphan : Bool :=
    match block.priorBlockHash with
    | some ph => !pyDictMem chain.blocks ph
    | none => false
  if orphan then .ok (false, chain)
  else
    match pyDictGetItem chain.blocks block.priorBlockHash with
    | .error e => .error e
    | .ok p_block =>
      match Block.validate dumps block p_block.utxo_set
          chain.maxMintCoinsPerTx with
      | .error e => .error e
      | .ok none => .ok (false, chain)
      | .ok (some n_set) =>
        let block' :=
          { block with utxo_set := n_set, height := p_block.height + 1 }
        .ok (true,
          { chain with
            blocks :=
              pyDictSet chain.blocks ((Block.getHash dumps block : Int)) block',
            height_blocks :=
              heightInsert chain.height_blocks block'.height block' })

/-- The states a `Blockchain` instance can be in: the constructor's state
(for any nonce at which the genesis `mine(genesisTarget)` loop, started at
nonce 0, stops first), extended by any sequence of successful `extend`
calls.  A failed `extend` leaves the state unchanged and a raising one
produces no state, so neither needs a rule. -/
inductive Reachable (dumps : Transaction → List Nat) : Blockchain → Prop where
  | init (gt mm n : Int) (hn : 0 ≤ n)
      (hfound : ((Block.getHash dumps (genesisBlock gt n)) : Int) < gt)
      (hleast : ∀ m : Int, 0 ≤ m → m < n →
        gt ≤ ((Block.getHash dumps (genesisBlock gt m)) : Int)) :
      Reachable dumps (initState dumps gt mm n)
  | step (s : Blockchain) (b : Block) (s' : Blockchain)
      (hs : Reachable dumps s)
      (he : s.extend dumps b = .ok (true, s')) : Reachable dumps s'

/-! ## Concrete witness data -/

/-- A concrete stand-in for the opaque `dill.dumps` serializer, used by the
witnesses (which only hash transaction-free blocks). -/
def dumpsNil : Transaction → List Nat := fun _ => []

/-- `2 ** 256`: every SHA-256 digest is below it, so mining at this target
succeeds at the starting nonce. -/
def T256 : Int :=
  115792089237316195423570985008687907853269984665640564039457584007913129639936

/-- The genesis block of the concrete witness chain (target `2**256`,
mined at nonce 0). -/
def genesisW : Block := genesisBlock T256 0

/-- A concrete freshly constructed chain (genesis target `2**256`, mint cap
50). -/
def chain0 : Blockchain := initState dumpsNil T256 50 0

/-- A concrete empty block on top of the witness genesis. -/
def blockW : Block :=
  { pyBlockNew with
    priorBlockHash := some ((Block.getHash dumpsNil genesisW : Int)),
    target := some T256 }

/-- The witness chain after accepting `blockW`. -/
def chain1 : Blockchain :=
  match chain0.extend dumpsNil blockW with
  | .ok (_, s) => s
  | _ => chain0

/-- A concrete coinbase: one unconstrained output of amount 100. -/
def mintTxW : Transaction :=
  { inputs := [], outputs := [outputInit none 100], data := [] }

/-- An output whose constraint script returns the integer `1` — truthy but
not the literal `True`. -/
def truthyOutputW : Output := { constraint := fun _ => .ok (.vint 1), amount := 5 }

/-- A UTXO set holding `truthyOutputW` under `(1, 0)`. -/
def truthyUtxoW : UTXO := [((1, 0), truthyOutputW)]

/-- A transaction spending `truthyOutputW`. -/
def truthyTxW : Transaction :=
  { inputs := [{ txHash := 1, txIdx := 0, satisfier := [] }], outputs := [],
    data := [] }

/-- An unconstrained output of amount 50 for the duplicate-reference
scenario. -/
def dupOutputW : Output := outputInit none 50

/-- A UTXO set holding a single 50-coin output under `(7, 0)`. -/
def dupUtxoW : UTXO := [((7, 0), dupOutputW)]

/-- A transaction spending the `(7, 0)` output **twice** and emitting 80
coins. -/
def dupTxW : Transaction :=
  { inputs := [{ txHash := 7, txIdx := 0, satisfier := [] },
               { txHash := 7, txIdx := 0, satisfier := [] }],
    outputs := [outputInit none 80], data := [] }

/-- An output whose constraint script raises on every satisfier. -/
def raisingOutputW : Output := { constraint := fun _ => .error .other, amount := 9 }

/-- A UTXO set holding `raisingOutputW` under `(3, 1)`. -/
def raisingUtxoW : UTXO := [((3, 1), raisingOutputW)]

/-- A transaction whose single input triggers the raising constraint. -/
def raisingTxW : Transaction :=
  { inputs := [{ txHash := 3, txIdx := 1, satisfier := [.vstr "a"] }],
    outputs := [], data := [] }

/-- The expected result of `Block().mine(2 ** 256)`: the hash is already
below the target at nonce 0. -/
def minedW : Block := { pyBlockNew with target := some T256 }

/-- The invariant `extend` maintains and the constructor establishes: a
positive genesis target, at least one block, pairwise distinct keys, every
entry keyed by its block's hash, and every stored block holding a target
that its hash beats. -/
def ChainInv (dumps : Transaction → List Nat) (s : Blockchain) : Prop :=
  1 ≤ s.genesisTarget ∧ s.blocks ≠ [] ∧
  (s.blocks.map Prod.fst).Nodup ∧
  ∀ p ∈ s.blocks, p.1 = ((Block.getHash dumps p.2 : Int)) ∧
    ∃ t : Int, p.2.target = some t ∧ ((Block.getHash dumps p.2 : Int)) < t

/-- The invariant of `getTip`'s fold accumulator: still the initial
`(-1, None)`, or a stored tip candidate together with its cumulative
work. -/
def TipAcc (dumps : Transaction → List Nat) (s : Blockchain)
    (acc : ℚ × Option Block) : Prop :=
  (acc.2 = none ∧ acc.1 = -1) ∨
    ∃ tb, acc.2 = some tb ∧ tb ∈ s.blocks.map Prod.snd ∧
      s.getCumulativeWork ((Block.getHash dumps tb : Int)) = some acc.1

theorem sha256int_empty :
    sha256int [] =
      102987336249554097029535212322581322789799900648198034993379397001115665086549 := by
  decide

theorem sha256int_abc :
    sha256int [97, 98, 99] =
      84342368487090800366523834928142263660104883695016514377462985829716817089965 := by
  decide

/-! ## Dictionary lemmas -/

theorem pyDictGet_mem_snd {κ α : Type} [DecidableEq κ] :
    ∀ (d : List (κ × α)) (k : κ) (v : α),
      pyDictGet d k = some v → v ∈ d.map Prod.snd := by
  intro d
  induction d with
  | nil => intro k v h; cases h
  | cons p rest ih =>
    intro k v h
    obtain ⟨k₁, v₁⟩ := p
    by_cases hk : k₁ = k
    · simp only [pyDictGet, if_pos hk] at h
      injection h with h
      simp [h]
    · simp only [pyDictGet, if_neg hk] at h
      simpa using Or.inr (List.mem_map.mp (ih k v h))

theorem pyDictGet_of_mem_nodup {κ α : Type} [DecidableEq κ] :
    ∀ (d : List (κ × α)) (k : κ) (v : α),
      (d.map Prod.fst).Nodup → (k, v) ∈ d → pyDictGet d k = some v := by
  intro d
  induction d with
  | nil => intro k v _ h; cases h
  | cons p rest ih =>
    intro k v hnd hmem
    obtain ⟨k₁, v₁⟩ := p
    simp only [List.map_cons, List.nodup_cons] at hnd
    by_cases hk : k₁ = k
    · subst hk
      rcases List.mem_cons.mp hmem with h | h
      · injection h with h₁ h₂
        simp [pyDictGet, h₂]
      · exact absurd (List.mem_map_of_mem Prod.fst h) hnd.1
    · rcases List.mem_cons.mp hmem with h | h
      · exact absurd (congrArg Prod.fst h).symm hk
      · simp only [pyDictGet, if_neg hk]
        exact ih k v hnd.2 h

theorem pyDictGet_none_iff {κ α : Type} [DecidableEq κ] :
    ∀ (d : List (κ × α)) (k : κ),
      pyDictGet d k = none ↔ k ∉ d.map Prod.fst := by
  intro d
  induction d with
  | nil => intro k; simp [pyDictGet]
  | cons p rest ih =>
    intro k
    obtain ⟨k₁, v₁⟩ := p
    by_cases hk : k₁ = k
    · simp [pyDictGet, hk]
    · simp [pyDictGet, hk, ih k, Ne.symm hk]

theorem pyDictGet_replaceAll {κ α : Type} [DecidableEq κ] (k : κ) (v : α) :
    ∀ (d : List (κ × α)) (k' : κ),
      pyDictGet (d.map (fun p => if p.1 = k then (k, v) else p)) k' =
        if k' = k then (if pyDictMem d k then some v else none)
        else pyDictGet d k' := by
  intro d
  induction d with
  | nil =>
    intro k'
    by_cases hk' : k' = k <;> simp [pyDictGet, pyDictMem, hk']
  | cons p rest ih =>
    intro k'
    obtain ⟨k₁, v₁⟩ := p
    have hmem : pyDictMem ((k₁, v₁) :: rest) k =
        if k₁ = k then true else pyDictMem rest k := by
      by_cases hk : k₁ = k <;> simp [pyDictMem, pyDictGet, hk]
    by_cases hk : k₁ = k
    · have hhead : (if (k₁, v₁).1 = k then (k, v) else (k₁, v₁)) = (k, v) := by
        simp [hk]
      rw [List.map_cons, hhead]
      by_cases hk' : k' = k
      · simp [pyDictGet, pyDictMem, hk', hmem, hk]
      · have hne₁ : k₁ ≠ k' := fun h => hk' ((hk ▸ h).symm)
        simp [pyDictGet, hk', Ne.symm hk', ih k', hne₁]
    · have hhead : (if (k₁, v₁).1 = k then (k, v) else (k₁, v₁)) = (k₁, v₁) := by
        simp [hk]
      rw [List.map_cons, hhead]
      by_cases hk' : k₁ = k'
      · have hne₂ : k' ≠ k := fun h => hk (hk'.trans h)
        simp [pyDictGet, hk', hne₂]
      · simp [pyDictGet, hk', ih k', hmem, hk]

theorem pyDictGet_append_some {κ α : Type} [DecidableEq κ] (k : κ) (v : α) :
    ∀ d : List (κ × α), pyDictGet d k = none →
      pyDictGet (d ++ [(k, v)]) k = some v := by
  intro d
  induction d with
  | nil => intro h; simp [pyDictGet]
  | cons p rest ih =>
    intro h
    obtain ⟨k₁, v₁⟩ := p
    by_cases hk : k₁ = k
    · rw [pyDictGet, if_pos hk] at h; cases h
    · rw [pyDictGet, if_neg hk] at h
      rw [List.cons_append, pyDictGet, if_neg hk]
      exact ih h

theorem pyDictGet_append_ne {κ α : Type} [DecidableEq κ] (k k' : κ) (v : α)
    (hne : k' ≠ k) :
    ∀ d : List (κ × α), pyDictGet (d ++ [(k, v)]) k' = pyDictGet d k' := by
  intro d
  induction d with
  | nil => simp [pyDictGet, Ne.symm hne]
  | cons p rest ih =>
    obtain ⟨k₁, v₁⟩ := p
    by_cases hk : k₁ = k'
    · simp [pyDictGet, hk]
    · rw [List.cons_append, pyDictGet, if_neg hk, pyDictGet, if_neg hk]
      exact ih

theorem pyDictGet_set_self {κ α : Type} [DecidableEq κ]
    (d : List (κ × α)) (k : κ) (v : α) :
    pyDictGet (pyDictSet d k v) k = some v := by
  rw [pyDictSet]
  by_cases hm : pyDictMem d k
  · rw [if_pos hm, pyDictGet_replaceAll]
    simp [hm]
  · rw [if_neg hm]
    refine pyDictGet_append_some k v d ?_
    rcases h : pyDictGet d k with _ | w
    · rfl
    · rw [pyDictMem, h] at hm; simp at hm

theorem pyDictGet_set_ne {κ α : Type} [DecidableEq κ]
    (d : List (κ × α)) (k k' : κ) (v : α) (hne : k' ≠ k) :
    pyDictGet (pyDictSet d k v) k' = pyDictGet d k' := by
  rw [pyDictSet]
  by_cases hm : pyDictMem d k
  · rw [if_pos hm, pyDictGet_replaceAll, if_neg hne]
  · rw [if_neg hm]
    exact pyDictGet_append_ne k k' v hne d

theorem map_replace_keys {κ α : Type} [DecidableEq κ] (k : κ) (v : α) :
    ∀ d : List (κ × α),
      (d.map (fun p => if p.1 = k then (k, v) else p)).map Prod.fst =
        d.map Prod.fst := by
  intro d
  induction d with
  | nil => rfl
  | cons p rest ih =>
    obtain ⟨k₁, v₁⟩ := p
    by_cases hk : k₁ = k
    · simp only [List.map_cons, ih]
      simp [hk]
    · simp only [List.map_cons, ih]
      simp [hk]

theorem pyDictSet_keys {κ α : Type} [DecidableEq κ]
    (d : List (κ × α)) (k : κ) (v : α) :
    (pyDictSet d k v).map Prod.fst = d.map Prod.fst ∨
      (pyDictSet d k v).map Prod.fst = d.map Prod.fst ++ [k] := by
  rw [pyDictSet]
  by_cases hm : pyDictMem d k
  · left
    rw [if_pos hm]
    exact map_replace_keys k v d
  · right
    simp [hm]

theorem pyDictSet_entry {κ α : Type} [DecidableEq κ]
    (d : List (κ × α)) (k : κ) (v : α) (p : κ × α)
    (hp : p ∈ pyDictSet d k v) : p = (k, v) ∨ p ∈ d := by
  rw [pyDictSet] at hp
  by_cases hm : pyDictMem d k
  · simp only [hm, if_true] at hp
    rcases List.mem_map.mp hp with ⟨q, hq, hqe⟩
    by_cases hk : q.1 = k
    · left; rw [← hqe]; simp [hk]
    · right; rw [← hqe]; simpa [hk] using hq
  · simp only [hm, Bool.false_eq_true, if_false] at hp
    rcases List.mem_append.mp hp with h | h
    · right; exact h
    · left; simpa using h

theorem pyDictSet_ne_nil {κ α : Type} [DecidableEq κ]
    (d : List (κ × α)) (k : κ) (v : α) : pyDictSet d k v ≠ [] := by
  rw [pyDictSet]
  by_cases hm : pyDictMem d k
  · cases d with
    | nil => rw [pyDictMem, pyDictGet] at hm; cases hm
    | cons p rest => simp [hm]
  · simp [hm]

theorem pyDictSet_nodup_keys {κ α : Type} [DecidableEq κ]
    (d : List (κ × α)) (k : κ) (v : α)
    (hnd : (d.map Prod.fst).Nodup) :
    ((pyDictSet d k v).map Prod.fst).Nodup := by
  rcases pyDictSet_keys d k v with h | h
  · rw [h]; exact hnd
  · rw [h, List.nodup_append]
    refine ⟨hnd, List.nodup_singleton k, ?_⟩
    intro a ha hb
    simp only [List.mem_singleton] at hb
    subst hb
    have hmem : pyDictMem d a = false := by
      by_contra hc
      have : pyDictMem d a = true := by
        cases hx : pyDictMem d a
        · exact absurd hx hc
        · rfl
      rw [pyDictSet, this] at h
      simp only [if_true] at h
      have hlen := congrArg List.length h
      simp at hlen
    rw [pyDictMem] at hmem
    rcases hx : pyDictGet d a with _ | w
    · exact (pyDictGet_none_iff d a).mp hx ha
    · rw [hx] at hmem; cases hmem

/-! ## C9 — mint validation -/

/-- C9: for every transaction and non-negative cap,
`Transaction.validateMint(cap)` returns `True` exactly when the input list
is empty and the summed output amounts do not exceed the cap. -/
theorem validateMint_iff_no_inputs_and_total_le_cap
    (tx : Transaction) (cap : Int) (hcap : 0 ≤ cap) :
    tx.validateMint cap = true ↔ tx.inputs = [] ∧ outputsTotal tx ≤ cap := by
  cases h : tx.inputs with
  | nil => simp [Transaction.validateMint, h]
  | cons a l => simp [Transaction.validateMint, h]

/-- Witness for C9 at the repository's own test data: a coinbase creating
100 coins against the cap 100. -/
theorem validateMint_iff_witness :
    (0 : Int) ≤ 100 ∧
      (mintTxW.validateMint 100 = true ↔
        mintTxW.inputs = [] ∧ outputsTotal mintTxW ≤ 100) :=
  ⟨by decide, validateMint_iff_no_inputs_and_total_le_cap mintTxW 100 (by decide)⟩

/-! ## C1 — only literal `True` should grant spending -/

/-- C1 (refuting the claim, a bug in the code): the claim says `validate`
returns `False` whenever a constraint script returns anything but the
literal `True`, as the module docstring also demands; but the code tests
`if not o_spent.can_spend(...)`, i.e. Python truthiness, so a script
returning the truthy integer `1` grants spending and `validate` returns
`True`. -/
theorem validate_accepts_truthy_nonboolean_constraint_result :
    truthyTxW.validate truthyUtxoW = true ∧
      truthyOutputW.can_spend [] = .vint 1 ∧
      PyVal.vint 1 ≠ .vbool true :=
  ⟨rfl, rfl, by decide⟩

/-! ## C3 — duplicate input references are counted twice -/

/-- C3: each input contributes the amount of its referenced output
independently, so a transaction listing one unspent 50-coin output twice
can emit 80 coins and still validate. -/
theorem validate_counts_duplicate_input_references_twice :
    ∃ (u : UTXO) (tx : Transaction) (ref : Int × Int) (o : Output),
      u = [(ref, o)] ∧
      tx.inputs.map Input.get_reference = [ref, ref] ∧
      o.amount < outputsTotal tx ∧
      tx.validate u = true :=
  ⟨dupUtxoW, dupTxW, (7, 0), dupOutputW, rfl, rfl, by decide, rfl⟩

/-! ## C7 — raising constraint scripts deny spending without propagating -/

theorem txValidateLoop_false_of_denied (u : UTXO) (toutput : Int)
    (i : Input) (o : Output)
    (href : pyDictGet u i.get_reference = some o)
    (hden : pyTruthy (o.can_spend i.satisfier) = false) :
    ∀ (l : List Input) (tinput : Int), i ∈ l →
      txValidateLoop u toutput l tinput = false := by
  intro l
  induction l with
  | nil => intro t h; cases h
  | cons a rest ih =>
    intro tinput hmem
    rcases List.mem_cons.mp hmem with h | h
    · subst h
      simp [txValidateLoop, href, hden]
    · cases hget : pyDictGet u a.get_reference with
      | none => simp [txValidateLoop, hget]
      | some oa =>
        by_cases ht : pyTruthy (oa.can_spend a.satisfier) = true
        · simp [txValidateLoop, hget, ht, ih _ h]
        · simp [txValidateLoop, hget, ht]

/-- C7: when some input's referenced output constraint raises on that
input's satisfier, `Transaction.validate` returns `False`; the exception is
absorbed inside `can_spend` (which returns `False` for it), so `validate`
is a total boolean function and nothing propagates. -/
theorem validate_false_when_constraint_raises
    (tx : Transaction) (u : UTXO) (i : Input) (o : Output)
    (hi : i ∈ tx.inputs)
    (href : pyDictGet u i.get_reference = some o)
    (hraise : ∃ e, o.constraint i.satisfier = .error e) :
    tx.validate u = false ∧ o.can_spend i.satisfier = .vbool false := by
  obtain ⟨e, he⟩ := hraise
  have hcs : o.can_spend i.satisfier = .vbool false := by
    rw [Output.can_spend, he]
  refine ⟨?_, hcs⟩
  rw [Transaction.validate]
  exact txValidateLoop_false_of_denied u (outputsTotal tx) i o href
    (by rw [hcs]; rfl) tx.inputs 0 hi

/-- Witness for C7: a constraint that raises on every satisfier denies the
spend and `validate` returns `False`. -/
theorem validate_false_when_constraint_raises_witness :
    raisingTxW.validate raisingUtxoW = false ∧
      raisingOutputW.can_spend [.vstr "a"] = .vbool false :=
  validate_false_when_constraint_raises raisingTxW raisingUtxoW
    { txHash := 3, txIdx := 1, satisfier := [.vstr "a"] } raisingOutputW
    (List.Mem.head _) rfl ⟨.other, rfl⟩

/-! ## C2 — `extend` on a block with a `None` prior link -/

/-- C2 (refuting the claim, a bug in the code): `extend`'s guard only
rejects a *non-None* unknown prior, so a submitted block whose prior link is
`None` (a second genesis candidate) reaches `self.blocks[None]` and raises
`KeyError` instead of returning `False` as the claim and the method's own
docstring promise. -/
theorem extend_raises_keyerror_on_null_prior :
    chain0.extend dumpsNil pyBlockNew = .error .keyError ∧
      pyBlockNew.priorBlockHash = none :=
  ⟨rfl, rfl⟩

/-! ## C10 — Merkle root structure and determinism -/

theorem merkleLevel_length :
    ∀ l : List Nat, (merkleLevel l).length = (l.length + 1) / 2
  | [] => rfl
  | [x] => by simp [merkleLevel]
  | x :: y :: rest => by
    simp only [merkleLevel, List.length_cons, merkleLevel_length rest]
    omega

theorem merkleAux_step (f : Nat) (l : List Nat) (h : 1 < l.length) :
    merkleAux (f + 1) l = merkleAux f (merkleLevel l) := by
  simp only [merkleAux]
  rw [if_pos h]

theorem merkleAux_done (f : Nat) (l : List Nat) (h : ¬ 1 < l.length) :
    merkleAux f l = l.headD 0 := by
  cases f with
  | zero => simp only [merkleAux]
  | succ f =>
    simp only [merkleAux]
    rw [if_neg h]

theorem merkleAux_fuel_irrelevant :
    ∀ (f g : Nat) (l : List Nat), l.length - 1 ≤ f → l.length - 1 ≤ g →
      merkleAux f l = merkleAux g l := by
  intro f
  induction f with
  | zero =>
    intro g l hf _
    have hle : ¬ 1 < l.length := by omega
    rw [merkleAux_done 0 l hle, merkleAux_done g l hle]
  | succ f ih =>
    intro g l hf hg
    by_cases hlen : 1 < l.length
    · cases g with
      | zero => omega
      | succ g' =>
        have hlev := merkleLevel_length l
        rw [merkleAux_step f l hlen, merkleAux_step g' l hlen]
        exact ih g' (merkleLevel l) (by omega) (by omega)
    · rw [merkleAux_done (f + 1) l hlen, merkleAux_done g l hlen]

theorem calcMerkleRoot_cons (a : Nat) (as : List Nat) :
    calcMerkleRoot (a :: as) = merkleAux (as.length + 1) (a :: as) := by
  simp only [calcMerkleRoot, List.length_cons]

/-- C10: `calcMerkleRoot` returns 0 on an empty leaf list; a single leaf is
its own root; with at least two leaves the root is the root of the next
level, where the next level pairs adjacent hashes by SHA-256 over their
32-byte big-endian encodings and uses the sentinel 0 as the right element
of an odd tail; and the computation is deterministic — equal leaf lists
give the identical integer. -/
theorem calcMerkleRoot_structure_and_determinism :
    calcMerkleRoot [] = 0 ∧
    (∀ x : Nat, calcMerkleRoot [x] = x) ∧
    (∀ l : List Nat, 2 ≤ l.length →
      calcMerkleRoot l = calcMerkleRoot (merkleLevel l)) ∧
    (∀ (x y : Nat) (rest : List Nat),
      merkleLevel (x :: y :: rest) = merkleCombine x y :: merkleLevel rest) ∧
    (∀ x : Nat, merkleLevel [x] = [merkleCombine x 0]) ∧
    (∀ l₁ l₂ : List Nat, l₁ = l₂ → calcMerkleRoot l₁ = calcMerkleRoot l₂) := by
  have hsingle : ∀ x : Nat, calcMerkleRoot [x] = x := by
    intro x
    rw [calcMerkleRoot_cons, merkleAux_done _ _ (by simp)]
    rfl
  refine ⟨rfl, hsingle, ?_, fun x y rest => by simp only [merkleLevel],
    fun x => by simp only [merkleLevel], fun l₁ l₂ h => h ▸ rfl⟩
  intro l hl
  match l with
  | x :: y :: rest =>
    have hlev := merkleLevel_length (x :: y :: rest)
    have hlevc : merkleLevel (x :: y :: rest) =
        merkleCombine x y :: merkleLevel rest := by simp only [merkleLevel]
    have hlen2 : 1 < (x :: y :: rest).length := by simp
    calc calcMerkleRoot (x :: y :: rest)
        = merkleAux (rest.length + 1 + 1) (x :: y :: rest) := by
          rw [calcMerkleRoot_cons]
          simp only [List.length_cons]
      _ = merkleAux (rest.length + 1) (merkleLevel (x :: y :: rest)) := by
          rw [merkleAux_step _ _ hlen2]
      _ = merkleAux ((merkleLevel rest).length + 1)
            (merkleLevel (x :: y :: rest)) := by
          apply merkleAux_fuel_irrelevant
          · simp only [List.length_cons] at hlev
            omega
          · have hlr := merkleLevel_length rest
            simp only [List.length_cons] at hlev
            omega
      _ = calcMerkleRoot (merkleLevel (x :: y :: rest)) := by
          rw [hlevc, calcMerkleRoot_cons]

/-- Witness for C10: the level-descent equation applied at a concrete
two-leaf list, and the empty-list base case. -/
theorem calcMerkleRoot_structure_witness :
    calcMerkleRoot ([] : List Nat) = 0 ∧
      calcMerkleRoot [5, 7] = calcMerkleRoot (merkleLevel [5, 7]) :=
  ⟨calcMerkleRoot_structure_and_determinism.1,
   calcMerkleRoot_structure_and_determinism.2.2.1 [5, 7] (by decide)⟩

/-! ## C8 — mining -/

theorem mineAux_spec (dumps : Transaction → List Nat) (tgt : Int) :
    ∀ (fuel : Nat) (c b' : Block),
      mineAux dumps fuel c tgt = some b' →
      b' = { c with nonce := b'.nonce } ∧ c.nonce ≤ b'.nonce ∧
      ((Block.getHash dumps b' : Int) < tgt) ∧
      (∀ m : Int, c.nonce ≤ m → m < b'.nonce →
        tgt ≤ (Block.getHash dumps { c with nonce := m } : Int)) := by
  intro fuel
  induction fuel with
  | zero =>
    intro c b' h
    simp only [mineAux] at h
    by_cases hlt : (Block.getHash dumps c : Int) < tgt
    · rw [if_pos hlt] at h
      injection h with h
      subst h
      exact ⟨rfl, le_refl _, hlt, fun m h1 h2 => absurd (lt_of_le_of_lt h1 h2)
        (lt_irrefl _)⟩
    · rw [if_neg hlt] at h
      cases h
  | succ f ih =>
    intro c b' h
    simp only [mineAux] at h
    by_cases hlt : (Block.getHash dumps c : Int) < tgt
    · rw [if_pos hlt] at h
      injection h with h
      subst h
      exact ⟨rfl, le_refl _, hlt, fun m h1 h2 => absurd (lt_of_le_of_lt h1 h2)
        (lt_irrefl _)⟩
    · rw [if_neg hlt] at h
      obtain ⟨he, hn, hh, hleast⟩ := ih { c with nonce := c.nonce + 1 } b' h
      refine ⟨he, by simp at hn; omega, hh, ?_⟩
      intro m h1 h2
      rcases eq_or_lt_of_le h1 with h1e | h1l
      · have hec : ({ c with nonce := m } : Block) = c := by rw [← h1e]
        rw [hec]
        exact le_of_not_lt hlt
      · have h1' : c.nonce + 1 ≤ m := h1l
        exact hleast m (by simpa using h1') h2

/-- C8: whenever `Block.mine(tgt)` terminates (returns within the given
fuel), the resulting block carries target `tgt`, its hash is strictly below
`tgt`, only the nonce (and target) changed, the nonce is at least the
starting nonce and every earlier nonce from the starting one fails the
target — i.e. the search runs upward one by one from the current nonce —
and the result is independent of the fuel, i.e. the search is
deterministic for equal starting state. -/
theorem mine_sets_target_and_finds_first_nonce
    (dumps : Transaction → List Nat) (fuel : Nat) (b : Block) (tgt : Int)
    (b' : Block) (h : Block.mine dumps fuel b tgt = some b') :
    b'.target = some tgt ∧
    ((Block.getHash dumps b' : Int) < tgt) ∧
    b.nonce ≤ b'.nonce ∧
    b' = { b with target := some tgt, nonce := b'.nonce } ∧
    (∀ m : Int, b.nonce ≤ m → m < b'.nonce →
      tgt ≤ (Block.getHash dumps { b with target := some tgt, nonce := m } : Int)) ∧
    (∀ (fuel₂ : Nat) (b₂ : Block), Block.mine dumps fuel₂ b tgt = some b₂ →
      b₂ = b') := by
  unfold Block.mine at h
  obtain ⟨he, hn, hh, hleast⟩ := mineAux_spec dumps tgt fuel _ b' h
  have htgt : b'.target = some tgt := by rw [he]
  refine ⟨htgt, hh, by simpa using hn, he, hleast, ?_⟩
  intro fuel₂ b₂ h₂
  unfold Block.mine at h₂
  obtain ⟨he₂, hn₂, hh₂, hleast₂⟩ := mineAux_spec dumps tgt fuel₂ _ b₂ h₂
  rcases lt_trichotomy b₂.nonce b'.nonce with hc | hc | hc
  · exact absurd hh₂ (not_lt.mpr (by
      have := hleast b₂.nonce (by simpa using hn₂) hc
      calc tgt ≤ _ := this
        _ = (Block.getHash dumps b₂ : Int) := by rw [← he₂]))
  · rw [he₂, he, hc]
  · exact absurd hh (not_lt.mpr (by
      have := hleast₂ b'.nonce (by simpa using hn) hc
      calc tgt ≤ _ := this
        _ = (Block.getHash dumps b' : Int) := by rw [← he]))

/-- Witness for C8: `Block().mine(2 ** 256)` succeeds immediately at
nonce 0 (every SHA-256 value is below `2 ** 256`). -/
theorem mine_sets_target_witness :
    Block.mine dumpsNil 0 pyBlockNew T256 = some minedW ∧
      minedW.target = some T256 ∧
      ((Block.getHash dumpsNil minedW : Int) < T256) := by
  have hlt : ((Block.getHash dumpsNil minedW : Int) < T256) := by decide
  have hmine : Block.mine dumpsNil 0 pyBlockNew T256 = some minedW := by
    unfold Block.mine
    rw [show ({ pyBlockNew with target := some T256 } : Block) = minedW from rfl]
    simp only [mineAux]
    rw [if_pos hlt]
  exact ⟨hmine,
    (mine_sets_target_and_finds_first_nonce dumpsNil 0 pyBlockNew T256 minedW
      hmine).1, hlt⟩

/-! ## C5 — snapshot consistency -/

theorem blockHeaderStr_ignores_state (dumps : Transaction → List Nat)
    (b : Block) (u : UTXO) (h : Int) :
    blockHeaderStr dumps { b with utxo_set := u, height := h } =
      blockHeaderStr dumps b := rfl

/-- `Block.getHash` reads only the prior link, the transactions, the target
and the nonce, so attaching a snapshot and a height does not change it. -/
theorem getHash_ignores_state (dumps : Transaction → List Nat)
    (b : Block) (u : UTXO) (h : Int) :
    Block.getHash dumps { b with utxo_set := u, height := h } =
      Block.getHash dumps b := by
  simp only [Block.getHash, blockHeaderStr_ignores_state]

theorem blockTxLoop_snapshot (dumps : Transaction → List Nat) (mm : Int) :
    ∀ (txs : List Transaction) (idx : Nat) (u : UTXO) (cf : Bool)
      (u' : UTXO) (cf' : Bool),
      blockTxLoop dumps mm txs idx u cf = some (u', cf') →
      u' = txs.foldl (applyTx dumps) u := by
  intro txs
  induction txs with
  | nil =>
    intro idx u cf u' cf' h
    simp only [blockTxLoop] at h
    injection h with h
    injection h with hu hc
    simp only [List.foldl_nil]
    exact hu.symm
  | cons tx rest ih =>
    intro idx u cf u' cf' h
    simp only [blockTxLoop] at h
    by_cases h0 : idx = 0
    · rw [if_pos h0] at h
      by_cases hm : tx.validateMint mm = true
      · rw [if_pos hm] at h
        rw [List.foldl_cons]
        exact ih _ _ _ _ _ h
      · rw [if_neg hm] at h
        cases h
    · rw [if_neg h0] at h
      by_cases hv : tx.validate u = true
      · rw [if_pos hv] at h
        rw [List.foldl_cons]
        exact ih _ _ _ _ _ h
      · rw [if_neg hv] at h
        cases h

/-- Inverting a successful `Block.validate`: the block has a target its hash
beats, and the returned snapshot is the argument with every transaction
applied in order. -/
theorem validate_ok_some_inv (dumps : Transaction → List Nat) (b : Block)
    (u : UTXO) (mm : Int) (nset : UTXO)
    (h : Block.validate dumps b u mm = .ok (some nset)) :
    ∃ t : Int, b.target = some t ∧ ((Block.getHash dumps b : Int)) < t ∧
      nset = b.txs.foldl (applyTx dumps) u := by
  unfold Block.validate at h
  cases ht : b.target with
  | none =>
    simp only [ht] at h
    exact Except.noConfusion h
  | some t =>
    simp only [ht] at h
    by_cases hpow : t ≤ (Block.getHash dumps b : Int)
    · rw [if_pos hpow] at h
      simp at h
    · rw [if_neg hpow] at h
      cases hloop : blockTxLoop dumps mm b.txs 0 u false with
      | none =>
        simp only [hloop] at h
        injection h with h
        exact Option.noConfusion h
      | some pr =>
        obtain ⟨u', cf⟩ := pr
        simp only [hloop] at h
        by_cases hc : 0 < b.txs.length ∧ cf = false
        · rw [if_pos hc] at h
          simp at h
        · rw [if_neg hc] at h
          injection h with h
          injection h with h
          refine ⟨t, rfl, lt_of_not_le hpow, ?_⟩
          rw [← h]
          exact blockTxLoop_snapshot dumps mm b.txs 0 u false u' cf hloop

/-- Inverting a successful `extend`: the block names a stored parent, its
validation against the parent's snapshot succeeded, and the new state stores
the block (with the new snapshot and height) under its hash. -/
theorem extend_ok_true_anatomy (dumps : Transaction → List Nat)
    (s : Blockchain) (b : Block) (s' : Blockchain)
    (h : s.extend dumps b = .ok (true, s')) :
    ∃ (ph : Int) (p : Block) (nset : UTXO),
      b.priorBlockHash = some ph ∧
      pyDictGet s.blocks ph = some p ∧
      Block.validate dumps b p.utxo_set s.maxMintCoinsPerTx = .ok (some nset) ∧
      s' = { s with
        blocks := pyDictSet s.blocks ((Block.getHash dumps b : Int))
          { b with utxo_set := nset, height := p.height + 1 },
        height_blocks := heightInsert s.height_blocks (p.height + 1)
          { b with utxo_set := nset, height := p.height + 1 } } := by
  simp only [Blockchain.extend] at h
  cases hp : b.priorBlockHash with
  | none => simp [hp, pyDictGetItem] at h
  | some ph =>
    by_cases hm : pyDictMem s.blocks ph = true
    · simp only [hp, hm, Bool.not_true, Bool.false_eq_true, if_false,
        pyDictGetItem] at h
      cases hg : pyDictGet s.blocks ph with
      | none => rw [pyDictMem, hg] at hm; simp at hm
      | some p =>
        simp only [hg] at h
        cases hv : Block.validate dumps b p.utxo_set s.maxMintCoinsPerTx with
        | error e => simp [hv] at h
        | ok o =>
          cases o with
          | none => simp [hv] at h
          | some nset =>
            simp only [hv] at h
            refine ⟨ph, p, nset, rfl, hg, hv, ?_⟩
            injection h with h
            injection h with hb hs
            exact hs.symm
    · rw [Bool.not_eq_true] at hm
      simp [hp, hm] at h

/-- C5: for every block accepted by `extend`, the snapshot stored on the
accepted block equals the parent's snapshot with the block's transactions
applied in list order (`applyTx`: outputs inserted under
`(tx.getHash(), j)`, then each input's reference removed if present); every
other key of the block map — the parent's entry in particular — is left
unchanged, and the parent's own snapshot is not mutated (the model is
value-semantic and validation works on a copy). -/
theorem extend_snapshot_is_parent_snapshot_with_txs_applied
    (dumps : Transaction → List Nat) (s s' : Blockchain) (b : Block)
    (h : s.extend dumps b = .ok (true, s')) :
    ∃ (ph : Int) (p : Block),
      b.priorBlockHash = some ph ∧
      pyDictGet s.blocks ph = some p ∧
      (∃ b', pyDictGet s'.blocks ((Block.getHash dumps b : Int)) = some b' ∧
        b'.utxo_set = b.txs.foldl (applyTx dumps) p.utxo_set) ∧
      (∀ k : Int, k ≠ ((Block.getHash dumps b : Int)) →
        pyDictGet s'.blocks k = pyDictGet s.blocks k) := by
  obtain ⟨ph, p, nset, hp, hg, hv, hs'⟩ := extend_ok_true_anatomy dumps s b s' h
  obtain ⟨t, ht, hpow, hfold⟩ :=
    validate_ok_some_inv dumps b p.utxo_set s.maxMintCoinsPerTx nset hv
  subst hs'
  refine ⟨ph, p, hp, hg,
    ⟨{ b with utxo_set := nset, height := p.height + 1 },
      pyDictGet_set_self _ _ _, by simpa using hfold⟩, ?_⟩
  intro k hk
  exact pyDictGet_set_ne _ _ _ _ hk

/-- Witness for C5: extending the concrete genesis chain `chain0` with the
empty block `blockW` yields `chain1`, whose stored snapshot is the (empty)
fold over no transactions. -/
theorem extend_snapshot_witness :
    ∃ (ph : Int) (p : Block),
      blockW.priorBlockHash = some ph ∧
      pyDictGet chain0.blocks ph = some p ∧
      (∃ b', pyDictGet chain1.blocks
          ((Block.getHash dumpsNil blockW : Int)) = some b' ∧
        b'.utxo_set = blockW.txs.foldl (applyTx dumpsNil) p.utxo_set) ∧
      (∀ k : Int, k ≠ ((Block.getHash dumpsNil blockW : Int)) →
        pyDictGet chain1.blocks k = pyDictGet chain0.blocks k) :=
  extend_snapshot_is_parent_snapshot_with_txs_applied dumpsNil chain0 chain1
    blockW rfl

/-! ## C6 — tip maximality -/

theorem reachable_chainInv (dumps : Transaction → List Nat) (s : Blockchain)
    (h : Reachable dumps s) : ChainInv dumps s := by
  induction h with
  | init gt mm n hn hfound hleast =>
    refine ⟨?_, ?_, ?_, ?_⟩
    · have h0 : (0 : Int) ≤ ((Block.getHash dumps (genesisBlock gt n)) : Int) :=
        Int.ofNat_nonneg _
      simp only [initState]
      omega
    · simp [initState]
    · simp [initState]
    · intro p hp
      simp only [initState, List.mem_singleton] at hp
      subst hp
      exact ⟨rfl, gt, rfl, hfound⟩
  | step s b s' hs he ih =>
    obtain ⟨ph, p, nset, hp, hg, hv, hs'⟩ := extend_ok_true_anatomy dumps s b s' he
    obtain ⟨t, ht, hpow, _⟩ :=
      validate_ok_some_inv dumps b p.utxo_set s.maxMintCoinsPerTx nset hv
    obtain ⟨hgt, hne, hnd, hent⟩ := ih
    subst hs'
    refine ⟨hgt, pyDictSet_ne_nil _ _ _, pyDictSet_nodup_keys _ _ _ hnd, ?_⟩
    intro q hq
    rcases pyDictSet_entry _ _ _ _ hq with hq1 | hq2
    · subst hq1
      refine ⟨?_, t, ?_, ?_⟩
      · show ((Block.getHash dumps b : Int)) =
          ((Block.getHash dumps
            { b with utxo_set := nset, height := p.height + 1 } : Int))
        rw [getHash_ignores_state dumps b nset (p.height + 1)]
      · show ({ b with utxo_set := nset, height := p.height + 1 } : Block).target
          = some t
        exact ht
      · show ((Block.getHash dumps
            { b with utxo_set := nset, height := p.height + 1 } : Int)) < t
        rw [getHash_ignores_state dumps b nset (p.height + 1)]
        exact hpow
    · exact hent q hq2

theorem chainInv_work_pos (dumps : Transaction → List Nat) (s : Blockchain)
    (hinv : ChainInv dumps s) (b : Block)
    (hb : b ∈ s.blocks.map Prod.snd) :
    0 < s.getWork (b.target.getD 0) := by
  obtain ⟨q, hq, hqb⟩ := List.mem_map.mp hb
  obtain ⟨hkey, t, htgt, hlt⟩ := hinv.2.2.2 q hq
  subst hqb
  rw [htgt]
  unfold Blockchain.getWork
  apply div_pos
  · have h1 : (0 : Int) < s.genesisTarget := lt_of_lt_of_le zero_lt_one hinv.1
    exact_mod_cast h1
  · have h0 : (0 : Int) ≤ (Block.getHash dumps q.2 : Int) := Int.ofNat_nonneg _
    have h2 : (0 : Int) < t := lt_of_le_of_lt h0 hlt
    exact_mod_cast h2

theorem nextBlock_mem (s : Blockchain) (blk : Block) :
    ∀ b2 : Block, (match blk.priorBlockHash with
      | none => none
      | some ph => pyDictGet s.blocks ph) = some b2 →
      b2 ∈ s.blocks.map Prod.snd := by
  intro b2 hb2
  cases hph : blk.priorBlockHash with
  | none => simp [hph] at hb2
  | some ph =>
    simp only [hph] at hb2
    exact pyDictGet_mem_snd _ _ _ hb2

theorem cumWorkAux_ge (dumps : Transaction → List Nat) (s : Blockchain)
    (hinv : ChainInv dumps s) :
    ∀ (fuel : Nat) (cur : Option Block) (acc : ℚ),
      (∀ blk, cur = some blk → blk ∈ s.blocks.map Prod.snd) →
      acc ≤ cumWorkAux s fuel cur acc := by
  intro fuel
  induction fuel with
  | zero =>
    intro cur acc _
    simp only [cumWorkAux]
    exact le_refl _
  | succ f ih =>
    intro cur acc hcur
    cases cur with
    | none =>
      simp only [cumWorkAux]
      exact le_refl _
    | some blk =>
      simp only [cumWorkAux]
      have hpos := chainInv_work_pos dumps s hinv blk (hcur blk rfl)
      calc acc ≤ acc + s.getWork (blk.target.getD 0) := by linarith
        _ ≤ _ := ih _ _ (nextBlock_mem s blk)

theorem getCumulativeWork_pos (dumps : Transaction → List Nat)
    (s : Blockchain) (hinv : ChainInv dumps s) (k : Int) (b : Block)
    (hkb : (k, b) ∈ s.blocks) :
    ∃ w : ℚ, s.getCumulativeWork k = some w ∧ 0 < w := by
  have hget : pyDictGet s.blocks k = some b :=
    pyDictGet_of_mem_nodup _ _ _ hinv.2.2.1 hkb
  unfold Blockchain.getCumulativeWork
  simp only [hget]
  refine ⟨_, rfl, ?_⟩
  have hlen : ∃ m, s.blocks.length = m + 1 := by
    cases hbl : s.blocks with
    | nil => exact absurd hbl hinv.2.1
    | cons a as => exact ⟨as.length, by simp [hbl]⟩
  obtain ⟨m, hm⟩ := hlen
  rw [hm]
  simp only [cumWorkAux]
  have hmem : b ∈ s.blocks.map Prod.snd := pyDictGet_mem_snd _ _ _ hget
  have hpos := chainInv_work_pos dumps s hinv b hmem
  have hge := cumWorkAux_ge dumps s hinv m
    (match b.priorBlockHash with
     | none => none
     | some ph => pyDictGet s.blocks ph)
    (0 + s.getWork (b.target.getD 0)) (nextBlock_mem s b)
  linarith

theorem tipFold_spec (dumps : Transaction → List Nat) (s : Blockchain)
    (hinv : ChainInv dumps s) :
    ∀ l : List Block, (∀ x ∈ l, x ∈ s.blocks.map Prod.snd) →
      ∀ acc : ℚ × Option Block, TipAcc dumps s acc →
      TipAcc dumps s (l.foldl (tipStep dumps s) acc) ∧
      acc.1 ≤ (l.foldl (tipStep dumps s) acc).1 ∧
      (∀ x ∈ l, ∀ w : ℚ,
        s.getCumulativeWork ((Block.getHash dumps x : Int)) = some w →
        w ≤ (l.foldl (tipStep dumps s) acc).1) := by
  intro l
  induction l with
  | nil =>
    intro _ acc hacc
    exact ⟨hacc, le_refl _, fun x hx => absurd hx (List.not_mem_nil x)⟩
  | cons x rest ih =>
    intro hl acc hacc
    have hxmem : x ∈ s.blocks.map Prod.snd := hl x (List.mem_cons_self x rest)
    have hrest : ∀ y ∈ rest, y ∈ s.blocks.map Prod.snd :=
      fun y hy => hl y (List.mem_cons_of_mem x hy)
    obtain ⟨q, hq, hqx⟩ := List.mem_map.mp hxmem
    have hq' : (q.1, x) ∈ s.blocks := by
      rw [← hqx, Prod.mk.eta]
      exact hq
    have hkey : q.1 = ((Block.getHash dumps x : Int)) := by
      rw [← hqx]
      exact (hinv.2.2.2 _ hq).1
    obtain ⟨w, hwseq, hwpos⟩ := getCumulativeWork_pos dumps s hinv q.1 x hq'
    rw [hkey] at hwseq
    have hstep : tipStep dumps s acc x = if w ≠ 0 ∧ acc.1 < w
        then (w, some x) else acc := by
      unfold tipStep
      simp only [hwseq]
    by_cases hcond : w ≠ 0 ∧ acc.1 < w
    · rw [List.foldl_cons, hstep, if_pos hcond]
      obtain ⟨hres, hmono, hall⟩ := ih hrest (w, some x)
        (Or.inr ⟨x, rfl, hxmem, hwseq⟩)
      refine ⟨hres, le_trans (le_of_lt hcond.2) hmono, ?_⟩
      intro y hy w' hw'
      rcases List.mem_cons.mp hy with hy1 | hy2
      · subst hy1
        have hww : w' = w := Option.some.inj (hw'.symm.trans hwseq)
        subst hww
        exact hmono
      · exact hall y hy2 w' hw'
    · rw [List.foldl_cons, hstep, if_neg hcond]
      obtain ⟨hres, hmono, hall⟩ := ih hrest acc hacc
      refine ⟨hres, hmono, ?_⟩
      intro y hy w' hw'
      rcases List.mem_cons.mp hy with hy1 | hy2
      · subst hy1
        have hww : w' = w := Option.some.inj (hw'.symm.trans hwseq)
        subst hww
        have hle : w' ≤ acc.1 := by
          rcases not_and_or.mp hcond with hc | hc
          · exact absurd (not_not.mp hc) (ne_of_gt hwpos)
          · exact le_of_not_lt hc
        linarith
      · exact hall y hy2 w' hw'

/-- C6: in every reachable chain state, `getTip` returns a stored block
whose cumulative work is at least the cumulative work of every stored
block.  (Work values, float in Python, are modelled as exact rationals; the
property is the argmax structure of `getTip` over `getCumulativeWork`.) -/
theorem getTip_returns_max_cumulative_work_block
    (dumps : Transaction → List Nat) (s : Blockchain)
    (h : Reachable dumps s) :
    ∃ tb, s.getTip dumps = some tb ∧ tb ∈ s.blocks.map Prod.snd ∧
      ∀ x ∈ s.blocks.map Prod.snd, ∀ wx wt : ℚ,
        s.getCumulativeWork ((Block.getHash dumps x : Int)) = some wx →
        s.getCumulativeWork ((Block.getHash dumps tb : Int)) = some wt →
        wx ≤ wt := by
  have hinv := reachable_chainInv dumps s h
  obtain ⟨hres, hmono, hall⟩ := tipFold_spec dumps s hinv
    (s.blocks.map Prod.snd) (fun x hx => hx) ((-1 : ℚ), none)
    (Or.inl ⟨rfl, rfl⟩)
  obtain ⟨q0, hmem0⟩ : ∃ q, q ∈ s.blocks := by
    cases hbl : s.blocks with
    | nil => exact absurd hbl hinv.2.1
    | cons a as => exact ⟨a, List.mem_cons_self a as⟩
  obtain ⟨k0, b0⟩ := q0
  obtain ⟨w0, hw0, hw0pos⟩ := getCumulativeWork_pos dumps s hinv k0 b0 hmem0
  have hb0mem : b0 ∈ s.blocks.map Prod.snd := List.mem_map_of_mem Prod.snd hmem0
  have hkey0 : k0 = ((Block.getHash dumps b0 : Int)) := (hinv.2.2.2 _ hmem0).1
  rw [hkey0] at hw0
  have hw0le : w0 ≤ ((s.blocks.map Prod.snd).foldl (tipStep dumps s)
      ((-1 : ℚ), none)).1 := hall b0 hb0mem w0 hw0
  rcases hres with ⟨hnone, hneg⟩ | ⟨tb, htb, htbmem, htbw⟩
  · exfalso
    rw [hneg] at hw0le
    linarith
  · refine ⟨tb, ?_, htbmem, ?_⟩
    · unfold Blockchain.getTip
      exact htb
    · intro x hx wx wt hwx hwt
      have h1 : wx ≤ ((s.blocks.map Prod.snd).foldl (tipStep dumps s)
          ((-1 : ℚ), none)).1 := hall x hx wx hwx
      have h2 : wt = ((s.blocks.map Prod.snd).foldl (tipStep dumps s)
          ((-1 : ℚ), none)).1 := Option.some.inj (hwt.symm.trans htbw)
      rw [h2]
      exact h1

/-- Witness for C6 at the concrete freshly constructed chain `chain0`
(genesis target `2 ** 256`, mined at nonce 0). -/
theorem getTip_max_witness :
    ∃ tb, chain0.getTip dumpsNil = some tb ∧
      tb ∈ chain0.blocks.map Prod.snd ∧
      ∀ x ∈ chain0.blocks.map Prod.snd, ∀ wx wt : ℚ,
        chain0.getCumulativeWork ((Block.getHash dumpsNil x : Int)) = some wx →
        chain0.getCumulativeWork ((Block.getHash dumpsNil tb : Int)) = some wt →
        wx ≤ wt :=
  getTip_returns_max_cumulative_work_block dumpsNil chain0
    (Reachable.init T256 50 0 (le_refl 0) (by decide)
      (fun m hm hltm => absurd (lt_of_le_of_lt hm hltm) (lt_irrefl 0)))
